import Mathlib

/-!
Verification of the Symbol/Token relational graph builder of
`data-processing/entities/symbols/commands/extract_symbols.py` (scholarphi).

Equation text is modelled as `List Char`; character offsets are `Nat`.
Brace characters appear in string literals as the escapes `\x7b` and `\x7d`.
-/

set_option maxHeartbeats 1000000

namespace ScholarPhi

/-- A leaf token of a parsed equation (`common.parse_equation.Token`):
equation-relative `start`/`end` character offsets, literal text, and the
parser-assigned index within the equation. `end` is a Lean keyword, so the
field is spelled `end_`. -/
structure Token where
  start : Nat
  end_ : Nat
  text : List Char
  token_index : Nat
deriving DecidableEq, Repr

/-- Python's `\w` character class, restricted to ASCII (TeX macro names are
ASCII letters). -/
def isWordChar (c : Char) : Bool := c.isAlphanum || c = '_'

/-- Length of the maximal run of word characters at the head of the list
(the greedy `\w+` step of the regex). -/
def wordRun : List Char → Nat
  | [] => 0
  | c :: cs => if isWordChar c then wordRun cs + 1 else 0

/-- Length of a match of the regex `\\(math|text)\w+\{` anchored at the head
of `s`, if it matches there: a backslash, the literal `math` or `text`, a
nonempty greedy run of word characters, then an opening brace. Backtracking
of `\w+` cannot produce further matches because every shorter run is followed
by a word character, not a brace, so the match length is determined. -/
def matchLen (s : List Char) : Option Nat :=
  match s with
  | [] => none
  | c :: rest =>
    if c = '\\' ∧ (rest.take 4 = ['m', 'a', 't', 'h'] ∨ rest.take 4 = ['t', 'e', 'x', 't']) then
      let k := wordRun (rest.drop 4)
      if 1 ≤ k ∧ (rest.drop (4 + k)).head? = some '\x7b' then some (6 + k) else none
    else none

/-- Model of `re.finditer` over the pattern above: scan left to right, record each
leftmost match as a `(start, end)` offset pair, and resume after its end
(matches do not overlap). `fuel` is an upper bound on the number of scan
steps; each step consumes at least one character, so `s.length` suffices. -/
def findMatchesAux : Nat → Nat → List Char → List (Nat × Nat)
  | 0, _, _ => []
  | _, _, [] => []
  | fuel + 1, pos, c :: cs =>
    match matchLen (c :: cs) with
    | some k => (pos, pos + k) :: findMatchesAux fuel (pos + k) ((c :: cs).drop k)
    | none => findMatchesAux fuel (pos + 1) cs

/-- All matches of `\\(math|text)\w+\{` in `s`, as `(start, end)` pairs in
left-to-right order. -/
def findMatches (s : List Char) : List (Nat × Nat) := findMatchesAux s.length 0 s

/-- The macro-absorption loop of `get_tex`:
`for match in re.finditer(...): if match.end() == start: start = match.start()`. -/
def absorbMacros (ms : List (Nat × Nat)) (start : Nat) : Nat :=
  ms.foldl (fun st m => if m.2 = st then m.1 else st) start

/-- One step of the open-brace counter: increment on `{`, decrement on `}`
only while positive, otherwise unchanged. -/
def braceStep (cnt : Nat) (c : Char) : Nat :=
  if c = '\x7b' then cnt + 1
  else if c = '\x7d' ∧ 0 < cnt then cnt - 1
  else cnt

/-- The forward brace-balance scan of `get_tex`, over `equation[i:]` with
current counter `cnt` and candidate end `e`: after updating the counter at
position `i`, stop at the first position with `i + 1 ≥ e` and counter zero,
returning `i + 1`; if the text ends first, return `e` unchanged. -/
def braceScan (i cnt e : Nat) : List Char → Nat
  | [] => e
  | c :: cs =>
    if e ≤ i + 1 ∧ braceStep cnt c = 0 then i + 1
    else braceScan (i + 1) (braceStep cnt c) e cs

/-- Whether the brace-balance scan ever reaches a stop position (a position
`i` with `i + 1 ≥ e` and counter zero after the update): `true` exactly when
`braceScan` breaks out of the loop rather than running off the end of the
text. -/
def braceScanStops (i cnt e : Nat) : List Char → Bool
  | [] => false
  | c :: cs =>
    if e ≤ i + 1 ∧ braceStep cnt c = 0 then true
    else braceScanStops (i + 1) (braceStep cnt c) e cs

/-- Function `get_tex` from `ExtractSymbols.save`: reconstruct the approximate TeX
span of a symbol from its tokens' offsets and the equation text, returning
`(equation[start:end], start, end)`. `save` never calls it with an empty
token list (`if len(symbol.tokens) == 0: continue`); Python's `min`/`max`
would raise there, modelled as `([], 0, 0)`. -/
def get_tex (tokens : List Token) (equation : List Char) : List Char × Nat × Nat :=
  match tokens with
  | [] => ([], 0, 0)
  | t :: ts =>
    let start0 := (ts.map Token.start).foldl min t.start
    let end0 := (ts.map Token.end_).foldl max t.end_
    let start := absorbMacros (findMatches equation) start0
    let e := braceScan start 0 end0 (equation.drop start)
    ((equation.drop start).take (e - start), start, e)

/-- A symbol node of the parsed equation forest
(`common.parse_equation.Node`): a markup representation, the child symbols
nested inside it, the tokens it covers, and the definition flag (possibly
absent). -/
inductive Node where
  | mk (element : List Char) (child_symbols : List Node) (tokens : List Token)
      (defined : Option Bool)
deriving Repr

def Node.element : Node → List Char
  | .mk e _ _ _ => e

def Node.child_symbols : Node → List Node
  | .mk _ c _ _ => c

def Node.tokens : Node → List Token
  | .mk _ _ t _ => t

def Node.defined : Node → Option Bool
  | .mk _ _ _ d => d

mutual
/-- Modelled from the spec: equality of `Node` values. The class
`common.parse_equation.Node` is not under `src/`, so the equality used by
Python's `list.index` and `==` on nodes is modelled as structural value
equality on all attributes, matching the spec's description of a Symbol as
its attributes (markup, children, tokens, definition flag). -/
def Node.beq : Node → Node → Bool
  | .mk e1 c1 t1 d1, .mk e2 c2 t2 d2 =>
    e1 == e2 && Node.beqList c1 c2 && t1 == t2 && d1 == d2

/-- Pointwise `Node.beq` on lists of nodes. -/
def Node.beqList : List Node → List Node → Bool
  | [], [] => true
  | a :: as, b :: bs => Node.beq a b && Node.beqList as bs
  | _, _ => false
end

mutual
theorem Node.beq_iff : ∀ a b : Node, Node.beq a b = true ↔ a = b
  | .mk e1 c1 t1 d1, .mk e2 c2 t2 d2 => by
    simp [Node.beq, Node.beqList_iff c1 c2, and_assoc]
theorem Node.beqList_iff : ∀ as bs : List Node, Node.beqList as bs = true ↔ as = bs
  | [], [] => by simp [Node.beqList]
  | [], _ :: _ => by simp [Node.beqList]
  | _ :: _, [] => by simp [Node.beqList]
  | a :: as, b :: bs => by
    simp [Node.beqList, Node.beq_iff a b, Node.beqList_iff as bs]
end

instance : DecidableEq Node := fun a b => decidable_of_iff _ (Node.beq_iff a b)

/-- The per-equation data handed from `process` to `save` (dataclass
`SymbolData`). `symbols` is `none` when the equation failed to parse. -/
structure SymbolData where
  arxiv_id : String
  success : Bool
  equation_index : Nat
  tex_path : String
  equation : List Char
  equation_start : Nat
  equation_depth : Nat
  context_tex : String
  symbols : Option (List Node)
  errorMessage : String

/-- A row of the per-equation parse-results log (dataclass `ParseResult`). -/
structure ParseResult where
  arxiv_id : String
  success : Bool
  equation_index : Nat
  tex_path : String
  equation : List Char
  errorMessage : String
deriving DecidableEq

/-- A row of the symbol table (`common.types.SerializableSymbol`). -/
structure SerializableSymbol where
  id_ : List Char
  tex_path : String
  equation_index : Nat
  equation : List Char
  symbol_index : Nat
  start : Nat
  end_ : Nat
  tex : List Char
  context_tex : String
  mathml : List Char
  is_definition : Bool
  relative_start : Nat
  relative_end : Nat
deriving DecidableEq

/-- A symbol→token membership row (`common.types.SerializableSymbolToken`). -/
structure SerializableSymbolToken where
  tex_path : String
  equation_index : Nat
  symbol_index : Nat
  token_index : Nat
deriving DecidableEq

/-- A symbol→child-symbol row (`common.types.SerializableChild`). -/
structure SerializableChild where
  tex_path : String
  equation_index : Nat
  equation : List Char
  symbol_index : Nat
  child_index : Nat
deriving DecidableEq

/-- A row of the token table (`common.types.SerializableToken`). -/
structure SerializableToken where
  tex_path : String
  id_ : List Char
  equation_index : Nat
  token_index : Nat
  start : Nat
  end_ : Nat
  relative_start : Nat
  relative_end : Nat
  tex : List Char
  context_tex : String
  text : List Char
  equation : List Char
  equation_depth : Nat
deriving DecidableEq

/-- The identifier `f"\x7bequation_index\x7d-\x7blocal_index\x7d"` as its
character sequence: the decimal digits of the two indices joined by a dash. -/
def mkId (a b : Nat) : List Char := Nat.toDigits 10 a ++ '-' :: Nat.toDigits 10 b

/-- Helper for `indexOf?`: position (counting from `i`) of the first element
of the list equal to `x`. -/
def indexOfAux (x : Node) : Nat → List Node → Option Nat
  | _, [] => none
  | i, y :: ys => if y = x then some i else indexOfAux x (i + 1) ys

/-- Python's `list.index` on the symbol list: index of the first element
equal to `x`; `none` models the `ValueError` Python raises when `x` is not
found. -/
def indexOf? (l : List Node) (x : Node) : Option Nat := indexOfAux x 0 l

/-- The `all_tokens` accumulator of `save` (a Python `set` updated with each
retained symbol's tokens). Modelled from the spec: `Token.__eq__`/`__hash__`
(`common.parse_equation`, not under `src/`) follow the spec's "set semantics
over token identity (its index)", so a token is added only when no token with
the same `token_index` is present; insertion order stands in for the
unspecified set iteration order. -/
def insertTokens (acc : List Token) (new : List Token) : List Token :=
  new.foldl
    (fun a t => if a.any (fun u => u.token_index == t.token_index) then a else a ++ [t]) acc

/-- The child loop of `save` (lines 262-274): one `SerializableChild` row per
child of the symbol, with `child_index = symbols.index(child)`; a child with
no equal element in the forest raises `ValueError`, modelled as an error
reported after the rows appended before it. -/
def emitChildren (syms : List Node) (r : SymbolData) (symbol_index : Nat) :
    List Node → List SerializableChild × Option String
  | [] => ([], none)
  | c :: cs =>
    match indexOf? syms c with
    | none => ([], some "ValueError: child is not in symbol list")
    | some ci =>
      let rest := emitChildren syms r symbol_index cs
      ({ tex_path := r.tex_path, equation_index := r.equation_index,
         equation := r.equation, symbol_index := symbol_index,
         child_index := ci } :: rest.1, rest.2)

/-- The mutable state of the symbol loop in `save`: rows appended so far to
each table, the `all_tokens` set, and the pending exception if one was
raised. -/
structure SaveState where
  symbolRows : List SerializableSymbol
  symbolTokenRows : List SerializableSymbolToken
  childRows : List SerializableChild
  all_tokens : List Token
  error : Option String

/-- The `SerializableSymbol` row appended for one retained symbol
(lines 230-247), with the span reconstructed by `get_tex` and absolute
offsets `equation_start + relative offset`. -/
def mkSymbolRow (r : SymbolData) (symbol_index : Nat) (s : Node) : SerializableSymbol :=
  { id_ := mkId r.equation_index symbol_index
    tex_path := r.tex_path
    equation_index := r.equation_index
    equation := r.equation
    symbol_index := symbol_index
    start := r.equation_start + (get_tex s.tokens r.equation).2.1
    end_ := r.equation_start + (get_tex s.tokens r.equation).2.2
    tex := (get_tex s.tokens r.equation).1
    context_tex := r.context_tex
    mathml := s.element
    is_definition := s.defined.getD false
    relative_start := (get_tex s.tokens r.equation).2.1
    relative_end := (get_tex s.tokens r.equation).2.2 }

/-- The symbol→token membership rows appended for one retained symbol
(lines 251-260), one per covered token in order. -/
def mkSymbolTokenRows (r : SymbolData) (symbol_index : Nat) (s : Node) :
    List SerializableSymbolToken :=
  s.tokens.map fun t =>
    { tex_path := r.tex_path, equation_index := r.equation_index,
      symbol_index := symbol_index, token_index := t.token_index }

/-- The `for symbol in symbols` loop of `save` (lines 178-274) over the
remaining symbols: each symbol is assigned `symbols.index(symbol)`, symbols
with no tokens are skipped, and for each retained symbol a symbol row, its
symbol→token rows and its symbol→child rows are appended and `all_tokens` is
updated; an exception from child resolution stops the loop with the rows
appended so far kept. -/
def processSymbols (r : SymbolData) (syms : List Node) :
    List Node → SaveState → SaveState
  | [], st => st
  | s :: rest, st =>
    match indexOf? syms s with
    | none => { st with error := some "ValueError: symbol is not in list" }
    | some symbol_index =>
      if s.tokens.length = 0 then processSymbols r syms rest st
      else
        match emitChildren syms r symbol_index s.child_symbols with
        | (crows, some e) =>
          { symbolRows := st.symbolRows ++ [mkSymbolRow r symbol_index s]
            symbolTokenRows := st.symbolTokenRows ++ mkSymbolTokenRows r symbol_index s
            childRows := st.childRows ++ crows
            all_tokens := insertTokens st.all_tokens s.tokens
            error := some e }
        | (crows, none) =>
          processSymbols r syms rest
            { symbolRows := st.symbolRows ++ [mkSymbolRow r symbol_index s]
              symbolTokenRows := st.symbolTokenRows ++ mkSymbolTokenRows r symbol_index s
              childRows := st.childRows ++ crows
              all_tokens := insertTokens st.all_tokens s.tokens
              error := none }

/-- A row of the token table for one member of `all_tokens`
(lines 277-295). -/
def mkTokenRow (r : SymbolData) (t : Token) : SerializableToken :=
  { tex_path := r.tex_path
    id_ := mkId r.equation_index t.token_index
    equation_index := r.equation_index
    token_index := t.token_index
    start := r.equation_start + t.start
    end_ := r.equation_start + t.end_
    relative_start := t.start
    relative_end := t.end_
    tex := (r.equation.drop t.start).take (t.end_ - t.start)
    context_tex := r.context_tex
    text := t.text
    equation := r.equation
    equation_depth := r.equation_depth }

/-- The observable effect of one `ExtractSymbols.save` call: the
parse-results row, whether the `symbol_children.csv` file was touched, the
rows appended to each table, and the exception if one escaped. -/
structure SaveOutput where
  parseResults : List ParseResult
  childrenFileCreated : Bool
  symbolRows : List SerializableSymbol
  symbolTokenRows : List SerializableSymbolToken
  childRows : List SerializableChild
  tokenRows : List SerializableToken
  error : Option String

/-- Model of `ExtractSymbols.save` (lines 128-295): always append the parse-results
row; then, only when `symbols` is present and nonempty, touch the
symbol-children file, run the symbol loop, and afterwards (if no exception
was raised) write one token row per member of `all_tokens`. -/
def save (r : SymbolData) : SaveOutput :=
  let pr : ParseResult :=
    { arxiv_id := r.arxiv_id, success := r.success,
      equation_index := r.equation_index, tex_path := r.tex_path,
      equation := r.equation, errorMessage := r.errorMessage }
  match r.symbols with
  | some syms =>
    if 0 < syms.length then
      let st := processSymbols r syms syms ⟨[], [], [], [], none⟩
      { parseResults := [pr]
        childrenFileCreated := true
        symbolRows := st.symbolRows
        symbolTokenRows := st.symbolTokenRows
        childRows := st.childRows
        tokenRows :=
          match st.error with
          | none => st.all_tokens.map (mkTokenRow r)
          | some _ => []
        error := st.error }
    else
      { parseResults := [pr], childrenFileCreated := false, symbolRows := [],
        symbolTokenRows := [], childRows := [], tokenRows := [], error := none }
  | none =>
    { parseResults := [pr], childrenFileCreated := false, symbolRows := [],
      symbolTokenRows := [], childRows := [], tokenRows := [], error := none }

/-- Severity of a logging call. -/
inductive LogLevel where
  | debug
  | warning
  | error
deriving DecidableEq

/-- One logging call: severity, format string, and the arguments passed for
interpolation. -/
structure LogEntry where
  level : LogLevel
  fmt : String
  args : List String
deriving DecidableEq

/-- The completed external invocation (`subprocess.run` result). -/
structure CompletedProcess where
  returncode : Int
  stdout : String
  stderr : String

/-- Model of `ExtractSymbols.process` after the external math-parsing invocation
returned (lines 108-126): on exit status 0 the symbol data parsed from
standard output is yielded and no error is logged; on nonzero exit nothing
is yielded and a single error-level entry is logged carrying the document
id and the captured output streams. Parsing of stdout (`_get_symbol_data`,
which needs `json` and `common.parse_equation`) is abstracted as the
argument `getSymbolData`. -/
def process (getSymbolData : String → List SymbolData) (item : String)
    (result : CompletedProcess) : List SymbolData × List LogEntry :=
  if result.returncode = 0 then (getSymbolData result.stdout, [])
  else
    ([], [{ level := LogLevel.error
            fmt := "Equation parsing for %s unexpectedly failed.\nStdout: %s\nStderr: %s\n"
            args := [item, result.stdout, result.stderr] }])

/-! ### Lemmas about the span reconstructor -/

theorem foldl_min_le_init (l : List Nat) (a : Nat) : l.foldl min a ≤ a := by
  induction l generalizing a with
  | nil => exact le_refl a
  | cons x xs ih => exact le_trans (ih (min a x)) (min_le_left a x)

theorem foldl_min_le_mem {x : Nat} (l : List Nat) (a : Nat) (hx : x ∈ l) :
    l.foldl min a ≤ x := by
  induction l generalizing a with
  | nil => cases hx
  | cons y ys ih =>
    rcases List.mem_cons.mp hx with h | h
    · subst h
      exact le_trans (foldl_min_le_init ys (min a x)) (min_le_right a x)
    · exact ih (min a y) h

theorem init_le_foldl_max (l : List Nat) (a : Nat) : a ≤ l.foldl max a := by
  induction l generalizing a with
  | nil => exact le_refl a
  | cons x xs ih => exact le_trans (le_max_left a x) (ih (max a x))

theorem mem_le_foldl_max {x : Nat} (l : List Nat) (a : Nat) (hx : x ∈ l) :
    x ≤ l.foldl max a := by
  induction l generalizing a with
  | nil => cases hx
  | cons y ys ih =>
    rcases List.mem_cons.mp hx with h | h
    · subst h
      exact le_trans (le_max_right a x) (init_le_foldl_max ys (max a x))
    · exact ih (max a y) h

theorem matchLen_pos {s : List Char} {k : Nat} (h : matchLen s = some k) : 0 < k := by
  cases s with
  | nil => simp [matchLen] at h
  | cons c rest =>
    simp only [matchLen] at h
    split at h
    · split at h
      · injection h with h'
        omega
      · cases h
    · cases h

theorem findMatchesAux_bounds :
    ∀ (fuel pos : Nat) (s : List Char) (m : Nat × Nat),
      m ∈ findMatchesAux fuel pos s → pos ≤ m.1 ∧ m.1 < m.2
  | 0, _, _, _, h => by simp [findMatchesAux] at h
  | _ + 1, _, [], _, h => by simp [findMatchesAux] at h
  | fuel + 1, pos, c :: cs, m, h => by
    simp only [findMatchesAux] at h
    cases hm : matchLen (c :: cs) with
    | none =>
      rw [hm] at h
      have := findMatchesAux_bounds fuel (pos + 1) cs m h
      omega
    | some k =>
      rw [hm] at h
      rcases List.mem_cons.mp h with h1 | h1
      · subst h1
        have := matchLen_pos hm
        exact ⟨le_refl _, by omega⟩
      · have := findMatchesAux_bounds fuel (pos + k) ((c :: cs).drop k) m h1
        have hk := matchLen_pos hm
        omega

theorem findMatchesAux_pairwise :
    ∀ (fuel pos : Nat) (s : List Char),
      (findMatchesAux fuel pos s).Pairwise (fun a b => a.2 ≤ b.1)
  | 0, _, _ => by simp [findMatchesAux]
  | _ + 1, _, [] => by simp [findMatchesAux]
  | fuel + 1, pos, c :: cs => by
    simp only [findMatchesAux]
    cases hm : matchLen (c :: cs) with
    | none => exact findMatchesAux_pairwise fuel (pos + 1) cs
    | some k =>
      refine List.Pairwise.cons ?_ (findMatchesAux_pairwise fuel (pos + k) ((c :: cs).drop k))
      intro b hb
      exact (findMatchesAux_bounds fuel (pos + k) ((c :: cs).drop k) b hb).1

theorem absorbMacros_le (ms : List (Nat × Nat)) (st : Nat)
    (h : ∀ m ∈ ms, m.1 < m.2) : absorbMacros ms st ≤ st := by
  induction ms generalizing st with
  | nil => exact le_refl st
  | cons a as ih =>
    simp only [absorbMacros, List.foldl_cons]
    by_cases ha : a.2 = st
    · rw [if_pos ha]
      have h1 : a.1 < a.2 := h a (List.mem_cons_self a as)
      have h2 := ih a.1 fun m hm => h m (List.mem_cons_of_mem a hm)
      calc (absorbMacros as a.1) ≤ a.1 := h2
        _ ≤ st := by omega
    · rw [if_neg ha]
      exact ih st fun m hm => h m (List.mem_cons_of_mem a hm)

theorem absorbMacros_eq_self (ms : List (Nat × Nat)) (st : Nat)
    (h : ∀ m ∈ ms, m.2 ≠ st) : absorbMacros ms st = st := by
  induction ms with
  | nil => rfl
  | cons a as ih =>
    simp only [absorbMacros, List.foldl_cons, if_neg (h a (List.mem_cons_self a as))]
    exact ih fun m hm => h m (List.mem_cons_of_mem a hm)

theorem absorbMacros_eq_of_mem (ms : List (Nat × Nat)) (st : Nat) (m : Nat × Nat)
    (hb : ∀ x ∈ ms, x.1 < x.2) (hp : ms.Pairwise fun a b => a.2 ≤ b.1)
    (hm : m ∈ ms) (he : m.2 = st) : absorbMacros ms st = m.1 := by
  induction ms with
  | nil => cases hm
  | cons a as ih =>
    rcases List.pairwise_cons.mp hp with ⟨hpa, hpas⟩
    rcases List.mem_cons.mp hm with h1 | h1
    · subst h1
      simp only [absorbMacros, List.foldl_cons, if_pos he]
      apply absorbMacros_eq_self
      intro x hx
      have h2 : m.2 ≤ x.1 := hpa x hx
      have h3 : x.1 < x.2 := hb x (List.mem_cons_of_mem m hx)
      have h4 : m.1 < m.2 := hb m (List.mem_cons_self m as)
      omega
    · have ha2 : a.2 ≤ m.1 := hpa m h1
      have hm2 : m.1 < m.2 := hb m (List.mem_cons_of_mem a h1)
      simp only [absorbMacros, List.foldl_cons]
      rw [if_neg (by omega : ¬a.2 = st)]
      exact ih (fun x hx => hb x (List.mem_cons_of_mem a hx)) hpas h1

theorem le_braceScan (cs : List Char) : ∀ i cnt e : Nat, e ≤ braceScan i cnt e cs := by
  induction cs with
  | nil => intro i cnt e; exact le_refl e
  | cons c cs ih =>
    intro i cnt e
    simp only [braceScan]
    split
    · next h => exact h.1
    · exact ih (i + 1) (braceStep cnt c) e

theorem braceScan_eq_of_not_stops (cs : List Char) :
    ∀ i cnt e : Nat, braceScanStops i cnt e cs = false → braceScan i cnt e cs = e := by
  induction cs with
  | nil => intro i cnt e _; rfl
  | cons c cs ih =>
    intro i cnt e h
    simp only [braceScanStops] at h
    simp only [braceScan]
    split at h
    · cases h
    · next hcond =>
      rw [if_neg hcond]
      exact ih (i + 1) (braceStep cnt c) e h

/-! ### Claims about the span reconstructor -/

/-- C1: for every equation and every symbol with a nonempty token list, the
span reconstructed by `get_tex` contains the span of every token the symbol
references — the reconstructed `relative_start` is at most the token's start
and the reconstructed `relative_end` is at least the token's end, both
relatively and after adding the equation's absolute start offset. -/
theorem get_tex_span_contains_tokens (s : Node) (equation : List Char)
    (equation_start : Nat) (tok : Token) (hmem : tok ∈ s.tokens) :
    (get_tex s.tokens equation).2.1 ≤ tok.start ∧
    tok.end_ ≤ (get_tex s.tokens equation).2.2 ∧
    equation_start + (get_tex s.tokens equation).2.1 ≤ equation_start + tok.start ∧
    equation_start + tok.end_ ≤ equation_start + (get_tex s.tokens equation).2.2 := by
  rcases hts : s.tokens with _ | ⟨t, ts⟩
  · rw [hts] at hmem; cases hmem
  · rw [hts] at hmem
    have h1 : (get_tex (t :: ts) equation).2.1 ≤ tok.start := by
      show absorbMacros (findMatches equation) ((ts.map Token.start).foldl min t.start) ≤
        tok.start
      have hle : absorbMacros (findMatches equation) ((ts.map Token.start).foldl min t.start) ≤
          (ts.map Token.start).foldl min t.start :=
        absorbMacros_le _ _ fun m hm => (findMatchesAux_bounds _ _ _ m hm).2
      have hmin : (ts.map Token.start).foldl min t.start ≤ tok.start := by
        rcases List.mem_cons.mp hmem with h | h
        · subst h; exact foldl_min_le_init _ _
        · exact foldl_min_le_mem _ _ (List.mem_map_of_mem Token.start h)
      exact le_trans hle hmin
    have h2 : tok.end_ ≤ (get_tex (t :: ts) equation).2.2 := by
      show tok.end_ ≤ braceScan _ 0 ((ts.map Token.end_).foldl max t.end_) _
      have hmax : tok.end_ ≤ (ts.map Token.end_).foldl max t.end_ := by
        rcases List.mem_cons.mp hmem with h | h
        · subst h; exact init_le_foldl_max _ _
        · exact mem_le_foldl_max _ _ (List.mem_map_of_mem Token.end_ h)
      exact le_trans hmax (le_braceScan _ _ _ _)
    exact ⟨h1, h2, Nat.add_le_add_left h1 _, Nat.add_le_add_left h2 _⟩

/-- Witness for C1 at a concrete input: the token `(1, 4)` of the equation
`{a+b}+c`, with equation start offset 100. -/
theorem get_tex_span_contains_tokens_witness :
    (get_tex (Node.mk ['m', 'i'] [] [⟨1, 4, "a+b".toList, 0⟩] none).tokens
        "\x7ba+b\x7d+c".toList).2.1 ≤ (1 : Nat) ∧
    (4 : Nat) ≤ (get_tex (Node.mk ['m', 'i'] [] [⟨1, 4, "a+b".toList, 0⟩] none).tokens
        "\x7ba+b\x7d+c".toList).2.2 ∧
    100 + (get_tex (Node.mk ['m', 'i'] [] [⟨1, 4, "a+b".toList, 0⟩] none).tokens
        "\x7ba+b\x7d+c".toList).2.1 ≤ 100 + 1 ∧
    100 + 4 ≤ 100 + (get_tex (Node.mk ['m', 'i'] [] [⟨1, 4, "a+b".toList, 0⟩] none).tokens
        "\x7ba+b\x7d+c".toList).2.2 :=
  get_tex_span_contains_tokens (Node.mk ['m', 'i'] [] [⟨1, 4, "a+b".toList, 0⟩] none)
    "\x7ba+b\x7d+c".toList 100 ⟨1, 4, "a+b".toList, 0⟩ (by simp [Node.tokens])

/-- C2 is false on the code: for equation `{a+b}+c` and a single token with
start 1 and end 4, the brace-balance scan starts at position 1, sees no open
brace, and stops at once with balance zero, so `get_tex` returns span text
`a+b` with end 4 — it does not extend past the closing brace at position 5
and does not return `{a+b}`. -/
theorem get_tex_unopened_brace_counterexample :
    (get_tex [⟨1, 4, "a+b".toList, 0⟩] "\x7ba+b\x7d+c".toList).1 ≠ "\x7ba+b\x7d".toList ∧
    (get_tex [⟨1, 4, "a+b".toList, 0⟩] "\x7ba+b\x7d+c".toList).2.2 ≠ 6 := by
  decide

/-- C2 as amended: for equation `{a+b}+c` and a single token with start 1 and
end 4, `get_tex` leaves the span unchanged and returns span text `a+b` with
relative span `(1, 4)`: the opening brace at position 0 lies before the scan's
start position, so no extension happens. -/
theorem get_tex_unopened_brace_amended :
    get_tex [⟨1, 4, "a+b".toList, 0⟩] "\x7ba+b\x7d+c".toList = ("a+b".toList, 1, 4) := by
  decide

/-- C3: for equation `\mathrm{P}(x_i)` and a single token covering `P`
(start 8, end 9), `get_tex` absorbs the `\mathrm{` macro invocation (its
match ends exactly at 8) moving the start to 0, and the brace scan extends
the end to 10, one past the matching closing brace, yielding `\mathrm{P}`. -/
theorem get_tex_mathrm_case :
    get_tex [⟨8, 9, "P".toList, 0⟩] "\\mathrm\x7bP\x7d(x_i)".toList =
      ("\\mathrm\x7bP\x7d".toList, 0, 10) := by
  decide

/-- C9: `get_tex` is a total function, and when the brace-balance scan never
reaches a stop position (position `i` with `i + 1 ≥ end` and counter zero)
before the equation text runs out, the returned `relative_end` is left at the
maximum token end. -/
theorem get_tex_unbalanced_end_unchanged (t : Token) (ts : List Token)
    (equation : List Char)
    (hnb : braceScanStops
        (absorbMacros (findMatches equation) ((ts.map Token.start).foldl min t.start)) 0
        ((ts.map Token.end_).foldl max t.end_)
        (equation.drop
          (absorbMacros (findMatches equation) ((ts.map Token.start).foldl min t.start)))
        = false) :
    (get_tex (t :: ts) equation).2.2 = (ts.map Token.end_).foldl max t.end_ := by
  show braceScan
      (absorbMacros (findMatches equation) ((ts.map Token.start).foldl min t.start)) 0
      ((ts.map Token.end_).foldl max t.end_)
      (equation.drop
        (absorbMacros (findMatches equation) ((ts.map Token.start).foldl min t.start))) =
    (ts.map Token.end_).foldl max t.end_
  exact braceScan_eq_of_not_stops _ _ _ _ hnb

/-- Witness for C9 at a concrete input: the truncated equation `{ab` with a
token spanning all of it; the counter never returns to zero, the scan raises
nothing, and the end stays at 3. -/
theorem get_tex_unbalanced_end_unchanged_witness :
    braceScanStops
        (absorbMacros (findMatches "\x7bab".toList)
          ((([] : List Token).map Token.start).foldl min 0)) 0
        ((([] : List Token).map Token.end_).foldl max 3)
        ("\x7bab".toList.drop
          (absorbMacros (findMatches "\x7bab".toList)
            ((([] : List Token).map Token.start).foldl min 0))) = false ∧
    (get_tex [⟨0, 3, "\x7bab".toList, 0⟩] "\x7bab".toList).2.2 = 3 :=
  ⟨by decide, get_tex_unbalanced_end_unchanged ⟨0, 3, "\x7bab".toList, 0⟩ [] "\x7bab".toList
    (by decide)⟩

/-- C10: macro absorption triggers exactly when some regex match's end equals
the minimum token start (the first position inside the macro's brace group):
if no match of `\\(math|text)\w+\{` ends at the minimum token start, the
reconstructed start is that minimum unchanged; if a match ends there, the
start becomes that match's start. In particular a minimum token start equal
to the opening brace's own position (or any other position not equal to a
match end) is never adjusted. -/
theorem get_tex_macro_absorption_iff (t : Token) (ts : List Token) (equation : List Char) :
    ((∀ m ∈ findMatches equation, m.2 ≠ (ts.map Token.start).foldl min t.start) →
        (get_tex (t :: ts) equation).2.1 = (ts.map Token.start).foldl min t.start) ∧
    (∀ m ∈ findMatches equation, m.2 = (ts.map Token.start).foldl min t.start →
        (get_tex (t :: ts) equation).2.1 = m.1) := by
  constructor
  · intro h
    show absorbMacros (findMatches equation) ((ts.map Token.start).foldl min t.start) =
      (ts.map Token.start).foldl min t.start
    exact absorbMacros_eq_self _ _ h
  · intro m hm he
    show absorbMacros (findMatches equation) ((ts.map Token.start).foldl min t.start) = m.1
    exact absorbMacros_eq_of_mem _ _ m
      (fun x hx => (findMatchesAux_bounds _ _ _ x hx).2)
      (findMatchesAux_pairwise _ _ _) hm he

/-- Witness for C10 at a concrete input: in `\mathrm{P}(x_i)` the match
`\mathrm{` spans `(0, 8)`; a token starting at 8 (one past the opening brace)
triggers absorption and the reconstructed start becomes 0. -/
theorem get_tex_macro_absorption_iff_witness :
    (0, 8) ∈ findMatches "\\mathrm\x7bP\x7d(x_i)".toList ∧
    (get_tex [⟨8, 9, "P".toList, 0⟩] "\\mathrm\x7bP\x7d(x_i)".toList).2.1 = 0 :=
  ⟨by decide,
    (get_tex_macro_absorption_iff ⟨8, 9, "P".toList, 0⟩ [] "\\mathrm\x7bP\x7d(x_i)".toList).2
      (0, 8) (by decide) (by decide)⟩

/-! ### Lemmas about the graph normalizer and table emitter -/

theorem processSymbols_nil (r : SymbolData) (syms : List Node) (st : SaveState) :
    processSymbols r syms [] st = st := rfl

theorem processSymbols_cons_notFound {syms : List Node} {s : Node}
    (r : SymbolData) (rest : List Node) (st : SaveState)
    (hidx : indexOf? syms s = none) :
    processSymbols r syms (s :: rest) st =
      { st with error := some "ValueError: symbol is not in list" } := by
  simp [processSymbols, hidx]

theorem processSymbols_cons_skip {syms : List Node} {s : Node} {si : Nat}
    (r : SymbolData) (rest : List Node) (st : SaveState)
    (hidx : indexOf? syms s = some si) (h0 : s.tokens.length = 0) :
    processSymbols r syms (s :: rest) st = processSymbols r syms rest st := by
  simp [processSymbols, hidx, h0]

theorem processSymbols_cons_err {syms : List Node} {s : Node} {si : Nat}
    {crows : List SerializableChild} {e : String}
    (r : SymbolData) (rest : List Node) (st : SaveState)
    (hidx : indexOf? syms s = some si) (h0 : ¬s.tokens.length = 0)
    (hce : emitChildren syms r si s.child_symbols = (crows, some e)) :
    processSymbols r syms (s :: rest) st =
      { symbolRows := st.symbolRows ++ [mkSymbolRow r si s]
        symbolTokenRows := st.symbolTokenRows ++ mkSymbolTokenRows r si s
        childRows := st.childRows ++ crows
        all_tokens := insertTokens st.all_tokens s.tokens
        error := some e } := by
  simp [processSymbols, hidx, h0, hce]

theorem processSymbols_cons_ok {syms : List Node} {s : Node} {si : Nat}
    {crows : List SerializableChild}
    (r : SymbolData) (rest : List Node) (st : SaveState)
    (hidx : indexOf? syms s = some si) (h0 : ¬s.tokens.length = 0)
    (hce : emitChildren syms r si s.child_symbols = (crows, none)) :
    processSymbols r syms (s :: rest) st =
      processSymbols r syms rest
        { symbolRows := st.symbolRows ++ [mkSymbolRow r si s]
          symbolTokenRows := st.symbolTokenRows ++ mkSymbolTokenRows r si s
          childRows := st.childRows ++ crows
          all_tokens := insertTokens st.all_tokens s.tokens
          error := none } := by
  simp [processSymbols, hidx, h0, hce]

theorem any_token_index_iff (acc : List Token) (t : Token) :
    (acc.any fun u => u.token_index == t.token_index) = true ↔
      t.token_index ∈ acc.map Token.token_index := by
  simp [List.any_eq_true, List.mem_map]

theorem insertTokens_cons (acc : List Token) (t : Token) (ts : List Token) :
    insertTokens acc (t :: ts) =
      insertTokens
        (if acc.any (fun u => u.token_index == t.token_index) then acc else acc ++ [t])
        ts := rfl

theorem mem_insertTokens (new : List Token) :
    ∀ (acc : List Token) (i : Nat),
      i ∈ (insertTokens acc new).map Token.token_index ↔
        i ∈ acc.map Token.token_index ∨ i ∈ new.map Token.token_index := by
  induction new with
  | nil => intro acc i; simp [insertTokens]
  | cons t ts ih =>
    intro acc i
    rw [insertTokens_cons, ih]
    by_cases hc : (acc.any fun u => u.token_index == t.token_index) = true
    · rw [if_pos hc]
      have ht := (any_token_index_iff acc t).mp hc
      simp only [List.map_cons, List.mem_cons]
      constructor
      · rintro (h | h)
        · exact Or.inl h
        · exact Or.inr (Or.inr h)
      · rintro (h | h | h)
        · exact Or.inl h
        · exact Or.inl (h ▸ ht)
        · exact Or.inr h
    · rw [if_neg hc]
      simp only [List.map_append, List.map_cons, List.map_nil, List.mem_append,
        List.mem_cons, List.not_mem_nil, or_false]
      tauto

theorem insertTokens_nodup (new : List Token) :
    ∀ acc : List Token, (acc.map Token.token_index).Nodup →
      ((insertTokens acc new).map Token.token_index).Nodup := by
  induction new with
  | nil => intro acc h; exact h
  | cons t ts ih =>
    intro acc h
    rw [insertTokens_cons]
    by_cases hc : (acc.any fun u => u.token_index == t.token_index) = true
    · rw [if_pos hc]; exact ih acc h
    · rw [if_neg hc]
      apply ih
      rw [List.map_append]
      simp only [List.map_cons, List.map_nil]
      rw [List.nodup_append]
      refine ⟨h, List.nodup_singleton _, ?_⟩
      intro a ha hb
      rcases List.mem_singleton.mp hb with rfl
      exact hc ((any_token_index_iff acc t).mpr ha)

theorem indexOfAux_spec :
    ∀ (l : List Node) (x : Node) (n i : Nat), indexOfAux x n l = some i →
      n ≤ i ∧ i - n < l.length ∧ l[i - n]? = some x := by
  intro l
  induction l with
  | nil => intro x n i h; simp [indexOfAux] at h
  | cons y ys ih =>
    intro x n i h
    simp only [indexOfAux] at h
    split at h
    · next heq =>
      injection h with h'
      subst h'
      refine ⟨le_refl _, by simp, ?_⟩
      simp [heq]
    · have h2 := ih x (n + 1) i h
      have hn : n ≤ i := by omega
      refine ⟨hn, by simp; omega, ?_⟩
      have hin : i - n = (i - (n + 1)) + 1 := by omega
      rw [hin]
      simpa using h2.2.2

theorem indexOf?_lt_length {l : List Node} {x : Node} {i : Nat}
    (h : indexOf? l x = some i) : i < l.length := by
  have := indexOfAux_spec l x 0 i h
  omega

theorem indexOf?_getElem {l : List Node} {x : Node} {i : Nat}
    (h : indexOf? l x = some i) : l[i]? = some x := by
  have := indexOfAux_spec l x 0 i h
  simpa using this.2.2

theorem indexOfAux_isSome {l : List Node} {x : Node} (hx : x ∈ l) :
    ∀ n : Nat, (indexOfAux x n l).isSome := by
  induction l with
  | nil => cases hx
  | cons y ys ih =>
    intro n
    simp only [indexOfAux]
    split
    · rfl
    · next hne =>
      rcases List.mem_cons.mp hx with h | h
      · exact absurd h.symm hne
      · exact ih h (n + 1)

theorem indexOf?_isSome {l : List Node} {x : Node} (hx : x ∈ l) :
    (indexOf? l x).isSome := indexOfAux_isSome hx 0

theorem posOf_inj {l : List Node} {x y : Node} (hx : x ∈ l) (hy : y ∈ l)
    (h : (indexOf? l x).getD 0 = (indexOf? l y).getD 0) : x = y := by
  obtain ⟨i, hi⟩ := Option.isSome_iff_exists.mp (indexOf?_isSome hx)
  obtain ⟨j, hj⟩ := Option.isSome_iff_exists.mp (indexOf?_isSome hy)
  rw [hi, hj] at h
  simp only [Option.getD_some] at h
  subst h
  have h1 := indexOf?_getElem hi
  have h2 := indexOf?_getElem hj
  rw [h1] at h2
  injection h2

theorem nodup_map_posOf (syms : List Node) (hnd : syms.Nodup) (p : Node → Bool) :
    ((syms.filter p).map fun s => (indexOf? syms s).getD 0).Nodup := by
  refine List.Nodup.map_on ?_ (hnd.filter p)
  intro x hx y hy hxy
  exact posOf_inj (List.mem_of_mem_filter hx) (List.mem_of_mem_filter hy) hxy

theorem emitChildren_bounds (syms : List Node) (r : SymbolData) (si : Nat) :
    ∀ cs : List Node, ∀ row ∈ (emitChildren syms r si cs).1,
      row.child_index < syms.length := by
  intro cs
  induction cs with
  | nil => intro row h; simp [emitChildren] at h
  | cons c cs ih =>
    intro row h
    simp only [emitChildren] at h
    cases hidx : indexOf? syms c with
    | none => rw [hidx] at h; simp at h
    | some ci =>
      rw [hidx] at h
      rcases List.mem_cons.mp h with h1 | h1
      · subst h1; exact indexOf?_lt_length hidx
      · exact ih row h1

theorem emitChildren_isSome (syms : List Node) (r : SymbolData) (si : Nat) :
    ∀ cs : List Node, (∃ c ∈ cs, indexOf? syms c = none) →
      ((emitChildren syms r si cs).2).isSome := by
  intro cs
  induction cs with
  | nil => rintro ⟨c, hc, _⟩; cases hc
  | cons c cs ih =>
    rintro ⟨d, hd, hnone⟩
    simp only [emitChildren]
    cases hidx : indexOf? syms c with
    | none => rfl
    | some ci =>
      rcases List.mem_cons.mp hd with h1 | h1
      · subst h1; rw [hidx] at hnone; cases hnone
      · exact ih ⟨d, h1, hnone⟩

theorem processSymbols_all_tokens_nodup (r : SymbolData) (syms : List Node) :
    ∀ (rem : List Node) (st : SaveState), (st.all_tokens.map Token.token_index).Nodup →
      ((processSymbols r syms rem st).all_tokens.map Token.token_index).Nodup := by
  intro rem
  induction rem with
  | nil => intro st h; exact h
  | cons s rest ih =>
    intro st h
    cases hidx : indexOf? syms s with
    | none =>
      rw [processSymbols_cons_notFound r rest st hidx]
      exact h
    | some si =>
      by_cases h0 : s.tokens.length = 0
      · rw [processSymbols_cons_skip r rest st hidx h0]
        exact ih st h
      · rcases hce : emitChildren syms r si s.child_symbols with ⟨crows, oe⟩
        cases oe with
        | some e =>
          rw [processSymbols_cons_err r rest st hidx h0 hce]
          exact insertTokens_nodup s.tokens st.all_tokens h
        | none =>
          rw [processSymbols_cons_ok r rest st hidx h0 hce]
          exact ih _ (insertTokens_nodup s.tokens st.all_tokens h)

theorem processSymbols_all_tokens_mem (r : SymbolData) (syms : List Node) :
    ∀ (rem : List Node) (st : SaveState),
      (processSymbols r syms rem st).error = none → ∀ i : Nat,
        (i ∈ (processSymbols r syms rem st).all_tokens.map Token.token_index ↔
          i ∈ st.all_tokens.map Token.token_index ∨
            ∃ s ∈ rem, s.tokens ≠ [] ∧ ∃ t ∈ s.tokens, t.token_index = i) := by
  intro rem
  induction rem with
  | nil =>
    intro st _ i
    simp [processSymbols_nil]
  | cons s rest ih =>
    intro st herr i
    cases hidx : indexOf? syms s with
    | none =>
      rw [processSymbols_cons_notFound r rest st hidx] at herr
      simp at herr
    | some si =>
      by_cases h0 : s.tokens.length = 0
      · rw [processSymbols_cons_skip r rest st hidx h0] at herr ⊢
        rw [ih st herr i]
        have hs0 : s.tokens = [] := List.length_eq_zero.mp h0
        simp only [List.mem_cons, exists_eq_or_imp, hs0, ne_eq, not_true_eq_false,
          false_and, false_or]
      · rcases hce : emitChildren syms r si s.child_symbols with ⟨crows, oe⟩
        cases oe with
        | some e =>
          rw [processSymbols_cons_err r rest st hidx h0 hce] at herr
          simp at herr
        | none =>
          rw [processSymbols_cons_ok r rest st hidx h0 hce] at herr ⊢
          rw [ih _ herr i]
          have hne : s.tokens ≠ [] := fun hh => h0 (by rw [hh]; rfl)
          simp only [mem_insertTokens, List.mem_cons, exists_eq_or_imp, hne, ne_eq,
            not_false_eq_true, true_and, ← List.mem_map]
          tauto

theorem processSymbols_symbolRows (r : SymbolData) (syms : List Node) :
    ∀ (rem : List Node) (st : SaveState),
      (processSymbols r syms rem st).error = none →
      (processSymbols r syms rem st).symbolRows.map SerializableSymbol.symbol_index =
        st.symbolRows.map SerializableSymbol.symbol_index ++
          (rem.filter fun s => !s.tokens.isEmpty).map fun s => (indexOf? syms s).getD 0 := by
  intro rem
  induction rem with
  | nil => intro st _; simp [processSymbols_nil]
  | cons s rest ih =>
    intro st herr
    cases hidx : indexOf? syms s with
    | none =>
      rw [processSymbols_cons_notFound r rest st hidx] at herr
      simp at herr
    | some si =>
      by_cases h0 : s.tokens.length = 0
      · rw [processSymbols_cons_skip r rest st hidx h0] at herr ⊢
        rw [ih st herr]
        have hemp : (!s.tokens.isEmpty) = false := by
          simp [List.length_eq_zero.mp h0]
        rw [List.filter_cons_of_neg (by simp [hemp])]
      · rcases hce : emitChildren syms r si s.child_symbols with ⟨crows, oe⟩
        cases oe with
        | some e =>
          rw [processSymbols_cons_err r rest st hidx h0 hce] at herr
          simp at herr
        | none =>
          rw [processSymbols_cons_ok r rest st hidx h0 hce] at herr ⊢
          rw [ih _ herr]
          have hne : s.tokens ≠ [] := fun hh => h0 (by rw [hh]; rfl)
          have hemp : (!s.tokens.isEmpty) = true := by
            simp [List.isEmpty_iff, hne]
          rw [List.filter_cons_of_pos (by simp [hemp])]
          simp only [List.map_append, List.map_cons, List.map_nil]
          rw [List.append_assoc]
          congr 1
          simp [mkSymbolRow, hidx]

theorem processSymbols_error_of_dangling (r : SymbolData) (syms : List Node) :
    ∀ (rem : List Node) (st : SaveState),
      (∃ s ∈ rem, s.tokens ≠ [] ∧ ∃ c ∈ s.child_symbols, indexOf? syms c = none) →
      ((processSymbols r syms rem st).error).isSome := by
  intro rem
  induction rem with
  | nil => rintro st ⟨s, hs, _⟩; cases hs
  | cons s rest ih =>
    rintro st ⟨d, hd, hdt, hdc⟩
    cases hidx : indexOf? syms s with
    | none =>
      rw [processSymbols_cons_notFound r rest st hidx]
      rfl
    | some si =>
      by_cases h0 : s.tokens.length = 0
      · rw [processSymbols_cons_skip r rest st hidx h0]
        rcases List.mem_cons.mp hd with h1 | h1
        · subst h1; exact absurd (List.length_eq_zero.mp h0) hdt
        · exact ih st ⟨d, h1, hdt, hdc⟩
      · rcases hce : emitChildren syms r si s.child_symbols with ⟨crows, oe⟩
        cases oe with
        | some e =>
          rw [processSymbols_cons_err r rest st hidx h0 hce]
          rfl
        | none =>
          rw [processSymbols_cons_ok r rest st hidx h0 hce]
          rcases List.mem_cons.mp hd with h1 | h1
          · subst h1
            have hsome := emitChildren_isSome syms r si d.child_symbols hdc
            rw [hce] at hsome
            simp at hsome
          · exact ih _ ⟨d, h1, hdt, hdc⟩

theorem processSymbols_childRows_lt (r : SymbolData) (syms : List Node) :
    ∀ (rem : List Node) (st : SaveState),
      (∀ row ∈ st.childRows, row.child_index < syms.length) →
      ∀ row ∈ (processSymbols r syms rem st).childRows, row.child_index < syms.length := by
  intro rem
  induction rem with
  | nil => intro st h; exact h
  | cons s rest ih =>
    intro st h
    cases hidx : indexOf? syms s with
    | none =>
      rw [processSymbols_cons_notFound r rest st hidx]
      exact h
    | some si =>
      by_cases h0 : s.tokens.length = 0
      · rw [processSymbols_cons_skip r rest st hidx h0]
        exact ih st h
      · rcases hce : emitChildren syms r si s.child_symbols with ⟨crows, oe⟩
        have hcb : ∀ row ∈ st.childRows ++ crows, row.child_index < syms.length := by
          intro row hr
          rcases List.mem_append.mp hr with h1 | h1
          · exact h row h1
          · exact emitChildren_bounds syms r si s.child_symbols row (by rw [hce]; exact h1)
        cases oe with
        | some e =>
          rw [processSymbols_cons_err r rest st hidx h0 hce]
          exact hcb
        | none =>
          rw [processSymbols_cons_ok r rest st hidx h0 hce]
          exact ih _ hcb

theorem save_error_processSymbols (r : SymbolData) (syms : List Node)
    (hs : r.symbols = some syms) (hpos : 0 < syms.length) :
    (save r).error = (processSymbols r syms syms ⟨[], [], [], [], none⟩).error := by
  simp [save, hs, hpos]

theorem save_symbolRows_processSymbols (r : SymbolData) (syms : List Node)
    (hs : r.symbols = some syms) (hpos : 0 < syms.length) :
    (save r).symbolRows = (processSymbols r syms syms ⟨[], [], [], [], none⟩).symbolRows := by
  simp [save, hs, hpos]

theorem save_childRows_processSymbols (r : SymbolData) (syms : List Node)
    (hs : r.symbols = some syms) (hpos : 0 < syms.length) :
    (save r).childRows = (processSymbols r syms syms ⟨[], [], [], [], none⟩).childRows := by
  simp [save, hs, hpos]

theorem save_tokenRows_processSymbols (r : SymbolData) (syms : List Node)
    (hs : r.symbols = some syms) (hpos : 0 < syms.length)
    (hok : (processSymbols r syms syms ⟨[], [], [], [], none⟩).error = none) :
    (save r).tokenRows =
      (processSymbols r syms syms ⟨[], [], [], [], none⟩).all_tokens.map (mkTokenRow r) := by
  simp [save, hs, hpos, hok]

/-! ### Claims about the graph normalizer and table emitter -/

/-- C4 describes what the intent is, but the code does the opposite: for a
successfully parsed equation whose symbol forest is empty, the whole emission
block of `save` (including the `open(symbol_children_path, "a")` touch that
its own comment says must happen so later stages can read the file) is
guarded by `len(result.symbols) > 0`, so the symbol-children file is NOT
created. The rest of the claim holds: no symbol or token rows are written
and no error is raised; only the parse-results row is appended. -/
theorem save_empty_forest_skips_children_file :
    (save ⟨"1111.1111", true, 0, "main.tex", "x+y".toList, 100, 0, "$x+y$", some [],
        ""⟩).childrenFileCreated = false ∧
    (save ⟨"1111.1111", true, 0, "main.tex", "x+y".toList, 100, 0, "$x+y$", some [],
        ""⟩).symbolRows = [] ∧
    (save ⟨"1111.1111", true, 0, "main.tex", "x+y".toList, 100, 0, "$x+y$", some [],
        ""⟩).tokenRows = [] ∧
    (save ⟨"1111.1111", true, 0, "main.tex", "x+y".toList, 100, 0, "$x+y$", some [],
        ""⟩).error = none ∧
    (save ⟨"1111.1111", true, 0, "main.tex", "x+y".toList, 100, 0, "$x+y$", some [],
        ""⟩).parseResults = [⟨"1111.1111", true, 0, "main.tex", "x+y".toList, ""⟩] :=
  ⟨rfl, rfl, rfl, rfl, rfl⟩

/-- C5: for every equation (spec-modelled token identity, see `insertTokens`),
each token referenced by at least one retained symbol produces exactly one
row in the token table — the emitted token indices are duplicate-free, and an
index is emitted exactly when some symbol with a nonempty token list
references a token with that index. -/
theorem save_token_rows_dedup (r : SymbolData) (syms : List Node)
    (hs : r.symbols = some syms) (hok : (save r).error = none) :
    ((save r).tokenRows.map SerializableToken.token_index).Nodup ∧
    ∀ i : Nat, i ∈ (save r).tokenRows.map SerializableToken.token_index ↔
      ∃ s ∈ syms, s.tokens ≠ [] ∧ ∃ t ∈ s.tokens, t.token_index = i := by
  rcases Nat.eq_zero_or_pos syms.length with h0 | hpos
  · have hnil := List.length_eq_zero.mp h0
    subst hnil
    have hrows : (save r).tokenRows = [] := by simp [save, hs]
    rw [hrows]
    simp
  · have herr : (processSymbols r syms syms ⟨[], [], [], [], none⟩).error = none := by
      rw [← save_error_processSymbols r syms hs hpos]
      exact hok
    rw [save_tokenRows_processSymbols r syms hs hpos herr]
    have hmapmap :
        ((processSymbols r syms syms ⟨[], [], [], [], none⟩).all_tokens.map
            (mkTokenRow r)).map SerializableToken.token_index =
          (processSymbols r syms syms ⟨[], [], [], [], none⟩).all_tokens.map
            Token.token_index := by
      simp [List.map_map, Function.comp, mkTokenRow]
    rw [hmapmap]
    constructor
    · exact processSymbols_all_tokens_nodup r syms syms _ (by simp)
    · intro i
      rw [processSymbols_all_tokens_mem r syms syms _ herr i]
      simp

/-- Witness data: a parent symbol covering tokens 0 and 1, with a child
symbol covering token 1, in the equation `x+y` starting at offset 100. -/
def exChild : Node := Node.mk "mi-y".toList [] [⟨2, 3, "y".toList, 1⟩] none

/-- Witness data: the parent symbol of `exChild`. -/
def exParent : Node :=
  Node.mk "mrow".toList [exChild] [⟨0, 1, "x".toList, 0⟩, ⟨2, 3, "y".toList, 1⟩] (some false)

/-- Witness data: a well-formed equation whose forest is `[exParent, exChild]`. -/
def exData : SymbolData :=
  ⟨"1111.1111", true, 0, "main.tex", "x+y".toList, 100, 0, "$x+y$",
    some [exParent, exChild], ""⟩

/-- Witness data: a forest `[exParent]` where the child of `exParent` is
absent from the symbol list. -/
def exDangling : SymbolData :=
  ⟨"1111.1111", true, 0, "main.tex", "x+y".toList, 100, 0, "$x+y$", some [exParent], ""⟩

/-- Witness for C5 at a concrete input: two symbols sharing token 1 produce
a duplicate-free token table. -/
theorem save_token_rows_dedup_witness :
    exData.symbols = some [exParent, exChild] ∧ (save exData).error = none ∧
    ((save exData).tokenRows.map SerializableToken.token_index).Nodup ∧
    (1 ∈ (save exData).tokenRows.map SerializableToken.token_index ↔
      ∃ s ∈ [exParent, exChild], s.tokens ≠ [] ∧ ∃ t ∈ s.tokens, t.token_index = 1) :=
  ⟨rfl, rfl, (save_token_rows_dedup exData [exParent, exChild] rfl rfl).1,
    (save_token_rows_dedup exData [exParent, exChild] rfl rfl).2 1⟩

/-- C6: for every equation whose forest holds pairwise-distinct symbol values
(spec-modelled: `parse_equation` is not under `src/`, and the spec fixes a
Symbol's index to its array position, so forest members are distinct
entities), the emitted symbol indices are pairwise distinct and the emitted
token indices are pairwise distinct, hence so are the derived
`{equation_index}-{local_index}` identifiers within the equation. -/
theorem save_emitted_indices_unique (r : SymbolData) (syms : List Node)
    (hs : r.symbols = some syms) (hnd : syms.Nodup) (hok : (save r).error = none) :
    ((save r).symbolRows.map SerializableSymbol.symbol_index).Nodup ∧
    ((save r).tokenRows.map SerializableToken.token_index).Nodup := by
  rcases Nat.eq_zero_or_pos syms.length with h0 | hpos
  · have hnil := List.length_eq_zero.mp h0
    subst hnil
    have h1 : (save r).symbolRows = [] := by simp [save, hs]
    have h2 : (save r).tokenRows = [] := by simp [save, hs]
    rw [h1, h2]
    simp
  · have herr : (processSymbols r syms syms ⟨[], [], [], [], none⟩).error = none := by
      rw [← save_error_processSymbols r syms hs hpos]
      exact hok
    constructor
    · rw [save_symbolRows_processSymbols r syms hs hpos,
        processSymbols_symbolRows r syms syms _ herr]
      simp only [List.map_nil, List.nil_append]
      exact nodup_map_posOf syms hnd _
    · rw [save_tokenRows_processSymbols r syms hs hpos herr]
      have hmapmap :
          ((processSymbols r syms syms ⟨[], [], [], [], none⟩).all_tokens.map
              (mkTokenRow r)).map SerializableToken.token_index =
            (processSymbols r syms syms ⟨[], [], [], [], none⟩).all_tokens.map
              Token.token_index := by
        simp [List.map_map, Function.comp, mkTokenRow]
      rw [hmapmap]
      exact processSymbols_all_tokens_nodup r syms syms _ (by simp)

/-- Witness for C6 at a concrete input: the two distinct symbols of `exData`
receive distinct symbol indices and the shared token is indexed once. -/
theorem save_emitted_indices_unique_witness :
    exData.symbols = some [exParent, exChild] ∧ ([exParent, exChild] : List Node).Nodup ∧
    (save exData).error = none ∧
    ((save exData).symbolRows.map SerializableSymbol.symbol_index).Nodup ∧
    ((save exData).tokenRows.map SerializableToken.token_index).Nodup :=
  ⟨rfl, by decide, rfl,
    (save_emitted_indices_unique exData [exParent, exChild] rfl (by decide) rfl).1,
    (save_emitted_indices_unique exData [exParent, exChild] rfl (by decide) rfl).2⟩

/-- C7: if some retained symbol lists a child with no equal element in the
equation's forest, `save` raises (`list.index` raises `ValueError`, surfaced
to the caller), and every symbol-children row that is written resolves to an
index inside the forest — no dangling child index is ever emitted. -/
theorem save_dangling_child_error (r : SymbolData) (syms : List Node)
    (hs : r.symbols = some syms)
    (hd : ∃ s ∈ syms, s.tokens ≠ [] ∧ ∃ c ∈ s.child_symbols, indexOf? syms c = none) :
    ((save r).error).isSome ∧
    ∀ row ∈ (save r).childRows, row.child_index < syms.length := by
  have hpos : 0 < syms.length := by
    rcases hd with ⟨s, hsm, _⟩
    exact List.length_pos.mpr (List.ne_nil_of_mem hsm)
  constructor
  · rw [save_error_processSymbols r syms hs hpos]
    exact processSymbols_error_of_dangling r syms syms _ hd
  · rw [save_childRows_processSymbols r syms hs hpos]
    exact processSymbols_childRows_lt r syms syms _ (by simp)

/-- Witness for C7 at a concrete input: `exDangling` holds one symbol whose
child is missing from the forest; saving it surfaces an error. -/
theorem save_dangling_child_error_witness :
    exDangling.symbols = some [exParent] ∧
    (∃ s ∈ [exParent], s.tokens ≠ [] ∧
      ∃ c ∈ s.child_symbols, indexOf? [exParent] c = none) ∧
    ((save exDangling).error).isSome :=
  ⟨rfl, by decide, (save_dangling_child_error exDangling [exParent] rfl (by decide)).1⟩

/-- C8: if the external math-parsing invocation completes with nonzero exit
status, `process` yields no per-equation results (so nothing reaches `save`
and no table rows are written for the document) and logs exactly one
error-level entry carrying the document identifier together with the
captured standard output and standard error. -/
theorem process_nonzero_exit_no_results (getSymbolData : String → List SymbolData)
    (item : String) (res : CompletedProcess) (h : res.returncode ≠ 0) :
    process getSymbolData item res =
      ([], [{ level := LogLevel.error
              fmt := "Equation parsing for %s unexpectedly failed.\nStdout: %s\nStderr: %s\n"
              args := [item, res.stdout, res.stderr] }]) := by
  simp [process, h]

/-- Witness for C8 at a concrete input: exit status 1. -/
theorem process_nonzero_exit_no_results_witness :
    ((1 : Int) ≠ 0) ∧
    process (fun _ => []) "1111.1111" ⟨1, "npm output", "stack trace"⟩ =
      ([], [{ level := LogLevel.error
              fmt := "Equation parsing for %s unexpectedly failed.\nStdout: %s\nStderr: %s\n"
              args := ["1111.1111", "npm output", "stack trace"] }]) :=
  ⟨by decide, process_nonzero_exit_no_results (fun _ => []) "1111.1111"
    ⟨1, "npm output", "stack trace"⟩ (by decide)⟩

end ScholarPhi
